import Mathlib

/-
Verification of the ccmaze build tools (src/tools/minifyer.py, src/tools/packer.py).

The development embeds the Python string operations used by the tools as
functions on lists of characters, then transcribes the comment-stripping
loop of minifyer.lua_file_function, the bundle composition of
packer.generate_lua_code / packer.save_lua_file, the module-id derivation
shared by both tools, the file-discovery filter, and the Lua semantics of
the resolver function emitted in the bundle prologue.
-/

/-! ## Python string primitives, on lists of characters -/

/-- Boolean test that the needle (first argument) is a prefix of the haystack. -/
def startsWithL : List Char → List Char → Bool
  | [], _ => true
  | _ :: _, [] => false
  | n :: ns, h :: hs => n == h && startsWithL ns hs

/-- Whether the needle occurs as a contiguous substring of the haystack
(Python membership test, also the positive case of str.find). -/
def hasSubL (n : List Char) : List Char → Bool
  | [] => n.isEmpty
  | c :: rest => startsWithL n (c :: rest) || hasSubL n rest

/-- Python str.find: index of the first occurrence of the needle, or -1. -/
def pyFindL (n : List Char) : List Char → Int
  | [] => if n.isEmpty then 0 else -1
  | c :: rest =>
    if startsWithL n (c :: rest) then 0
    else
      let r := pyFindL n rest
      if r < 0 then -1 else r + 1

/-- Python s.split(needle)[0]: the part of the haystack before the first
occurrence of the needle (the whole haystack if the needle is absent). -/
def splitHeadL (n : List Char) : List Char → List Char
  | [] => []
  | c :: rest => if startsWithL n (c :: rest) then [] else c :: splitHeadL n rest

/-- The part of the haystack strictly after the first occurrence of the
needle (empty if absent); used to model the spec description of handling
of trailing content after a block-comment close marker. -/
def dropThroughL (n : List Char) : List Char → List Char
  | [] => []
  | c :: rest =>
    if startsWithL n (c :: rest) then (c :: rest).drop n.length
    else dropThroughL n rest

/-- The characters Python str.strip removes by default. -/
def isPySpace (c : Char) : Bool :=
  c == ' ' || c == '\t' || c == '\n' || c == '\r' || c == '\x0b' || c == '\x0c'

/-- Remove the maximal run of whitespace at the end of a list. -/
def trimR : List Char → List Char
  | [] => []
  | c :: rest => if (trimR rest).isEmpty && isPySpace c then [] else c :: trimR rest

/-- Python str.strip: remove whitespace from both ends. -/
def pyStripL (l : List Char) : List Char := trimR (l.dropWhile isPySpace)

/-- One character of Python readlines, consumed from the right: a newline
starts a fresh line (kept at the end of that line), any other character is
prepended to the current first line. -/
def rlStep (c : Char) (acc : List (List Char)) : List (List Char) :=
  if c == '\n' then ['\n'] :: acc
  else
    match acc with
    | [] => [[c]]
    | l :: ls => (c :: l) :: ls

/-- Python f.readlines() on newline-normalized text: split into lines, each
keeping its trailing newline; no empty final line. -/
def readlinesL (l : List Char) : List (List Char) := l.foldr rlStep []

/-! ## String-level wrappers -/

def pyStrip (s : String) : String := ⟨pyStripL s.data⟩

def pyStartswith (s pre : String) : Bool := startsWithL pre.data s.data

def pyEndswith (s suf : String) : Bool := startsWithL suf.data.reverse s.data.reverse

def pyFind (s n : String) : Int := pyFindL n.data s.data

def pySplitHead (s n : String) : String := ⟨splitHeadL n.data s.data⟩

def pyDropThrough (s n : String) : String := ⟨dropThroughL n.data s.data⟩

/-- Python str.replace with a one-character pattern and replacement. -/
def pyReplaceChar (s : String) (a b : Char) : String :=
  ⟨s.data.map (fun c => if c == a then b else c)⟩

def readlines (s : String) : List String := (readlinesL s.data).map (fun l => ⟨l⟩)

/-- Python "a.b.lua".split(".") as a list of chunks. -/
def pySplitDotL (l : List Char) : List (List Char) :=
  l.foldr
    (fun c acc =>
      if c == '.' then [] :: acc
      else
        match acc with
        | [] => [[c]]
        | a :: as => (c :: a) :: as)
    [[]]

/-- Python "".join(filename.split(".")[:-1]): the filename stem with every
dot removed (as in find_files of both tools). -/
def stemJoin (f : String) : String := ⟨((pySplitDotL f.data).dropLast).flatten⟩

/-! ## Module id derivation (shared expression of both tools)

Both packer.lua_file_function and minifyer.lua_file_function derive the
registry key as path.replace("\\", ".").replace("/", ".").
-/

def moduleId (path : String) : String :=
  pyReplaceChar (pyReplaceChar path '\\' '.') '/' '.'

/-! ## Sanity checks of the primitives (concrete evaluations) -/

example : pyStrip "  a b \n" = "a b" := by decide
example : pyFind "print" "--" = -1 := by decide
example : pyFind "a -- b" "--" = 2 := by decide
example : pySplitHead "a -- b" "--" = "a " := by decide
example : readlines "ab\ncd" = ["ab\n", "cd"] := by decide
example : readlines "ab\n\n" = ["ab\n", "\n"] := by decide
example : readlines "" = [] := by decide
example : stemJoin "z.lua" = "z" := by decide
example : stemJoin "a.b.lua" = "ab" := by decide
example : moduleId "ccmaze/x.y/z" = "ccmaze.x.y.z" := by decide
example : moduleId "ccmaze/x/y/z" = "ccmaze.x.y.z" := by decide

/-! ## The minifyer tool (src/tools/minifyer.py) -/

namespace Minifyer

/-- The prologue string literal lua_custom_require of minifyer.py
(braces written as \x7b and \x7d, apostrophes as \x27 where needed). -/
def lua_custom_require : String :=
  "local files = \x7b\x7d\nlocal globalRequire = require\nlocal require = function(path) return files[path]() or globalRequire(path) end\nlocal ccmaze = \x7brequire = require\x7d"

/-- One iteration of the line loop of minifyer.lua_file_function: state is
(code accumulated so far, skip flag). Transcribed branch for branch:
set skip when the trimmed line starts with the block open marker; a line
holding the close marker while skipping is discarded whole and clears skip;
a line starting with the line-comment marker, or any line while skipping, is
discarded; otherwise the line is truncated before the first line-comment
marker whenever find is nonzero (Python integer truthiness) and appended
with a separating space. -/
def stripStep (st : String × Bool) (line : String) : String × Bool :=
  let ls := pyStrip line
  let skip := if pyStartswith ls "--[" then true else st.2
  if pyFind ls "]]" > -1 && skip then (st.1, false)
  else if pyStartswith ls "--" || skip then (st.1, skip)
  else
    let ls2 := if pyFind ls "--" == 0 then ls else pyStrip (pySplitHead ls "--")
    (st.1 ++ ls2 ++ " ", skip)

/-- The comment-stripping transformation of minifyer.lua_file_function in
isolation: the line loop run on the file content with an empty accumulator
(the surrounding header and footer of the wrapped unit are added by
lua_file_function below). -/
def stripText (x : String) : String :=
  ((readlines x).foldl stripStep ("", false)).1

/-- minifyer.lua_file_function: the wrapped single-line module unit, with
the file content supplied explicitly in place of the file read. -/
def lua_file_function (path content : String) : String :=
  ((readlines content).foldl stripStep
    ("files[\x27" ++ moduleId path ++ "\x27] = function(...) ", false)).1 ++ " end "

/-- The auto-generation header line written first by the minifyer main
block, with the strftime result supplied explicitly. -/
def mkHeader (t : String) : String :=
  "-- This file was auto-generated on " ++ t ++ "\n"

/-- The write loop of the minifyer main block. The output file is already
open, holding the text written so far; each path is read (fs models the
filesystem) and its wrapped unit appended. A failed read raises, closing
the file: the partial content persists on disk and the run fails. On
success the trailing return statement is appended. Result: (content of the
output file on disk, whether the run succeeded). -/
def mainGo (fs : String → Option String) : List String → String → Option String × Bool
  | [], written => (some (written ++ "return ccmaze"), true)
  | p :: ps, written =>
    match fs (p ++ ".lua") with
    | none => (some written, false)
    | some c => mainGo fs ps (written ++ lua_file_function p c)

/-- The minifyer main block: open the output, write the timestamp header
and the flattened prologue, then loop over the discovered paths. -/
def mainRun (t : String) (fs : String → Option String) (paths : List String) :
    Option String × Bool :=
  mainGo fs paths (mkHeader t ++ pyReplaceChar lua_custom_require '\n' ' ')

end Minifyer

/-! ## The packer tool (src/tools/packer.py) -/

namespace Packer

/-- The prologue string literal lua_custom_require of packer.py, including
its leading newline and the trailing spaces present in the source. -/
def lua_custom_require : String :=
  "\nlocal files = \x7b\x7d\nlocal globalRequire = require\nlocal require = function(path) \n    return files[path]() or globalRequire(path) \nend\nlocal ccmaze = \x7brequire = require\x7d\n"

/-- packer.lua_file_function: the wrapped module unit, body kept verbatim,
with the file content supplied explicitly in place of the file read. -/
def lua_file_function (path content : String) : String :=
  "files[\x27" ++ moduleId path ++ "\x27] = function(...)\n" ++ content ++ "\nend\n"

/-- packer.generate_lua_code over the ordered (path, content) pairs of the
discovered files: prologue, then one unit per file appended in order, then
the trailing return statement. -/
def generate_lua_code (files : List (String × String)) : String :=
  (files.foldl (fun acc pc => acc ++ lua_file_function pc.1 pc.2) lua_custom_require)
    ++ "return ccmaze"

/-- The file reads performed inside packer.generate_lua_code, in list
order; the first missing file raises, yielding none. -/
def readAll (fs : String → Option String) : List String → Option (List (String × String))
  | [] => some []
  | p :: ps =>
    match fs (p ++ ".lua") with
    | none => none
    | some c => (readAll fs ps).map (fun rest => (p, c) :: rest)

/-- packer.save_lua_file: generate the whole merged code (reading every
file), then open the output and write it. A raised read error propagates
before the output is opened, so nothing is written. Result: (content of
the output file on disk, whether the run succeeded). -/
def save_lua_file (fs : String → Option String) (paths : List String) :
    Option String × Bool :=
  match readAll fs paths with
  | none => (none, false)
  | some prs => (some (generate_lua_code prs), true)

/-- The per-entry body of the find_files loop, over os.walk output modelled
as (directory, filename) pairs; os.path.join is POSIX root ++ "/" ++ name.
Keeps .lua files outside ccmaze/tests and ccmaze/init.lua, and appends the
joined path with the dot-stripped stem. -/
def find_files (walk : List (String × String)) : List String :=
  walk.filterMap (fun rf =>
    let path := pyReplaceChar (rf.1 ++ "/" ++ rf.2) '\\' '/'
    if !(pyEndswith rf.2 ".lua") then none
    else if pyStartswith path "ccmaze/tests" then none
    else if pyStartswith path "ccmaze/init.lua" then none
    else some (rf.1 ++ "/" ++ stemJoin rf.2))

end Packer

/-! ## Semantics of the emitted resolver

Both prologues emit
  local require = function(path) return files[path]() or globalRequire(path) end
Lua semantics: indexing a table at an absent key yields nil; calling nil
raises a runtime error; a or b returns a when a is truthy (neither nil nor
false) and otherwise evaluates and returns b.
-/

inductive LuaValue where
  | nil : LuaValue
  | boolean : Bool → LuaValue
  | val : Nat → LuaValue
deriving DecidableEq

def LuaValue.truthy : LuaValue → Bool
  | .nil => false
  | .boolean b => b
  | .val _ => true

/-- Evaluation of one call of the emitted resolver: files is the local
registry (none models an absent key, i.e. a nil table entry), globalRequire
the native resolver of the host. files[path]() is evaluated first; when the
entry is absent this is a call of nil and raises. -/
def bundleRequire (files : String → Option (Unit → LuaValue))
    (globalRequire : String → LuaValue) (path : String) : Except String LuaValue :=
  match files path with
  | none => Except.error "attempt to call a nil value"
  | some f =>
    let v := f ()
    if v.truthy then Except.ok v else Except.ok (globalRequire path)

/-! ## The stripping state machine as the spec describes it (for claim C7) -/

/-- Modelled from the spec: the NORMAL-state rule of the section 4.3 state
machine — a trimmed line beginning the block open marker enters the block
state emitting nothing; otherwise the line is truncated at the first
line-comment marker when present; the surviving trimmed chunk is emitted
with a separating space when non-empty. -/
def specNormalRule (a ls : String) : String × Bool :=
  if pyStartswith ls "--[" then (a, true)
  else
    let chunk := if pyFind ls "--" > -1 then pyStrip (pySplitHead ls "--") else ls
    if chunk == "" then (a, false) else (a ++ chunk ++ " ", false)

/-- Modelled from the spec: one line of the section 4.3 machine, where in
the block state a line holding the close marker is discarded only up to and
including the marker and the trailing content of the same line is processed
under the NORMAL rule; a block line without the close marker is discarded
whole. This is the behavior claim C7 asserts of the code. -/
def specStripStepC7 (st : String × Bool) (line : String) : String × Bool :=
  let ls := pyStrip line
  if st.2 then
    if pyFind ls "]]" > -1 then specNormalRule st.1 (pyStrip (pyDropThrough ls "]]"))
    else (st.1, true)
  else specNormalRule st.1 ls

/-- Modelled from the spec: the full stripping transformation of the claimed
machine, flattened output mode. -/
def specStripC7 (x : String) : String :=
  ((readlines x).foldl specStripStepC7 ("", false)).1

/-! ## Lemmas about the primitives -/

theorem startsWithL_append (n : List Char) :
    ∀ p q : List Char, startsWithL n p = true → startsWithL n (p ++ q) = true := by
  induction n with
  | nil => intro p q _; rfl
  | cons c ns ih =>
    intro p q h
    cases p with
    | nil => simp [startsWithL] at h
    | cons d ps =>
      simp only [startsWithL, List.cons_append, Bool.and_eq_true] at h ⊢
      exact ⟨h.1, ih ps q h.2⟩

theorem hasSubL_nil_left (b : List Char) : hasSubL [] b = true := by
  cases b with
  | nil => rfl
  | cons c rest => simp [hasSubL, startsWithL]

theorem hasSubL_of_startsWithL (n l : List Char) (h : startsWithL n l = true) :
    hasSubL n l = true := by
  cases l with
  | nil =>
    cases n with
    | nil => rfl
    | cons c ns => simp [startsWithL] at h
  | cons c rest => simp [hasSubL, h]

theorem startsWithL_of_append_left (n m : List Char) :
    ∀ l : List Char, startsWithL (n ++ m) l = true → startsWithL n l = true := by
  induction n with
  | nil => intro l _; rfl
  | cons c ns ih =>
    intro l h
    cases l with
    | nil => simp [startsWithL] at h
    | cons d ls =>
      simp only [List.cons_append, startsWithL, Bool.and_eq_true] at h ⊢
      exact ⟨h.1, ih ls h.2⟩

theorem hasSubL_append_right (n a b : List Char) (h : hasSubL n (a ++ b) = false) :
    hasSubL n b = false := by
  induction a with
  | nil => exact h
  | cons c cs ih =>
    simp only [List.cons_append, hasSubL, Bool.or_eq_false_iff] at h
    exact ih h.2

theorem hasSubL_append_left (n a b : List Char) (h : hasSubL n (a ++ b) = false) :
    hasSubL n a = false := by
  induction a with
  | nil =>
    cases n with
    | nil => rw [hasSubL_nil_left] at h; exact absurd h (by simp)
    | cons c ns => rfl
  | cons c cs ih =>
    simp only [List.cons_append, hasSubL, Bool.or_eq_false_iff] at h
    simp only [hasSubL, Bool.or_eq_false_iff]
    refine ⟨?_, ih h.2⟩
    by_contra hsw
    have hsw' : startsWithL n (c :: cs) = true := by
      cases hx : startsWithL n (c :: cs) with
      | true => rfl
      | false => exact absurd hx hsw
    have := startsWithL_append n (c :: cs) b hsw'
    rw [List.cons_append] at this
    exact Bool.false_ne_true (h.1.symm.trans this)

theorem splitHeadL_decomp (n : List Char) :
    ∀ l : List Char, ∃ t, splitHeadL n l ++ t = l := by
  intro l
  induction l with
  | nil => exact ⟨[], rfl⟩
  | cons c rest ih =>
    by_cases hsw : startsWithL n (c :: rest) = true
    · exact ⟨c :: rest, by simp [splitHeadL, hsw]⟩
    · obtain ⟨t, ht⟩ := ih
      exact ⟨t, by simp [splitHeadL, hsw, ht]⟩

theorem hasSubL_splitHeadL (n : List Char) (hn : n ≠ []) :
    ∀ l : List Char, hasSubL n (splitHeadL n l) = false := by
  intro l
  induction l with
  | nil =>
    cases n with
    | nil => exact absurd rfl hn
    | cons c ns => rfl
  | cons c rest ih =>
    by_cases hsw : startsWithL n (c :: rest) = true
    · simp only [splitHeadL, hsw, if_true]
      cases n with
      | nil => exact absurd rfl hn
      | cons d ns => rfl
    · simp only [splitHeadL, hsw, if_false, hasSubL, Bool.or_eq_false_iff]
      refine ⟨?_, ih⟩
      by_contra hx
      have hx' : startsWithL n (c :: splitHeadL n rest) = true := by
        cases hy : startsWithL n (c :: splitHeadL n rest) with
        | true => rfl
        | false => exact absurd hy hx
      obtain ⟨t, ht⟩ := splitHeadL_decomp n rest
      have := startsWithL_append n (c :: splitHeadL n rest) t hx'
      rw [List.cons_append, ht] at this
      exact hsw this

theorem splitHeadL_eq_self (n : List Char) :
    ∀ l : List Char, hasSubL n l = false → splitHeadL n l = l := by
  intro l
  induction l with
  | nil => intro _; rfl
  | cons c rest ih =>
    intro h
    simp only [hasSubL, Bool.or_eq_false_iff] at h
    simp [splitHeadL, h.1, ih h.2]

theorem pyFindL_eq_zero_imp (n : List Char) :
    ∀ l : List Char, pyFindL n l = 0 → startsWithL n l = true := by
  intro l
  cases l with
  | nil =>
    intro h
    cases n with
    | nil => rfl
    | cons c ns => simp [pyFindL, List.isEmpty] at h
  | cons c rest =>
    intro h
    by_cases hsw : startsWithL n (c :: rest) = true
    · exact hsw
    · exfalso
      simp only [pyFindL, if_neg hsw] at h
      split at h <;> omega

theorem pyFindL_eq_neg_of_no (n : List Char) :
    ∀ l : List Char, hasSubL n l = false → pyFindL n l = -1 := by
  intro l
  induction l with
  | nil =>
    intro h
    cases n with
    | nil => simp [hasSubL, List.isEmpty] at h
    | cons c ns => rfl
  | cons c rest ih =>
    intro h
    simp only [hasSubL, Bool.or_eq_false_iff] at h
    simp only [pyFindL, h.1, if_false, ih h.2]
    decide

/-! ## Lemmas about trimR and pyStrip -/

theorem trimR_decomp : ∀ l : List Char, ∃ t, trimR l ++ t = l := by
  intro l
  induction l with
  | nil => exact ⟨[], rfl⟩
  | cons c rest ih =>
    by_cases hc : ((trimR rest).isEmpty && isPySpace c) = true
    · exact ⟨c :: rest, by simp [trimR, hc]⟩
    · obtain ⟨t, ht⟩ := ih
      exact ⟨t, by simp [trimR, hc, ht]⟩

theorem trimR_idem : ∀ l : List Char, trimR (trimR l) = trimR l := by
  intro l
  induction l with
  | nil => rfl
  | cons c rest ih =>
    by_cases hc : ((trimR rest).isEmpty && isPySpace c) = true
    · simp [trimR, hc]
    · simp only [trimR, hc, if_false]
      simp only [trimR, ih, hc, if_false]

theorem trimR_append_ws : ∀ (l : List Char) (c : Char), isPySpace c = true →
    trimR (l ++ [c]) = trimR l := by
  intro l c hc
  induction l with
  | nil => simp [trimR, hc]
  | cons d ds ih =>
    show trimR (d :: (ds ++ [c])) = trimR (d :: ds)
    simp only [trimR, ih]

theorem dropWhile_head_not {α : Type} (p : α → Bool) :
    ∀ (l : List α) (c : α) (rest : List α), l.dropWhile p = c :: rest → p c = false := by
  intro l
  induction l with
  | nil => intro c rest h; simp [List.dropWhile] at h
  | cons d ds ih =>
    intro c rest h
    by_cases hp : p d = true
    · rw [List.dropWhile_cons_of_pos hp] at h
      exact ih c rest h
    · have hp' : ¬ p d := by simp [hp]
      rw [List.dropWhile_cons_of_neg hp'] at h
      have hd := (List.cons.injEq d ds c rest).mp h
      rw [← hd.1]
      simp [hp]

theorem dropWhile_decomp {α : Type} (p : α → Bool) :
    ∀ l : List α, ∃ a, a ++ l.dropWhile p = l := by
  intro l
  induction l with
  | nil => exact ⟨[], rfl⟩
  | cons d ds ih =>
    by_cases hp : p d = true
    · obtain ⟨a, ha⟩ := ih
      exact ⟨d :: a, by rw [List.dropWhile_cons_of_pos hp, List.cons_append, ha]⟩
    · exact ⟨[], by rw [List.dropWhile_cons_of_neg (by simp [hp]), List.nil_append]⟩

theorem dropWhile_append_cases {α : Type} (p : α → Bool) :
    ∀ l r : List α, (l.dropWhile p = [] ∧ (l ++ r).dropWhile p = r.dropWhile p) ∨
      (l.dropWhile p ≠ [] ∧ (l ++ r).dropWhile p = l.dropWhile p ++ r) := by
  intro l r
  induction l with
  | nil => exact Or.inl ⟨rfl, rfl⟩
  | cons d ds ih =>
    by_cases hp : p d = true
    · rw [List.cons_append, List.dropWhile_cons_of_pos hp, List.dropWhile_cons_of_pos hp]
      exact ih
    · right
      rw [List.cons_append, List.dropWhile_cons_of_neg (by simp [hp]),
        List.dropWhile_cons_of_neg (by simp [hp])]
      exact ⟨by simp, rfl⟩

theorem pyStripL_idem : ∀ l : List Char, pyStripL (pyStripL l) = pyStripL l := by
  intro l
  show trimR ((trimR (l.dropWhile isPySpace)).dropWhile isPySpace) = trimR (l.dropWhile isPySpace)
  have hdw : (trimR (l.dropWhile isPySpace)).dropWhile isPySpace = trimR (l.dropWhile isPySpace) := by
    cases hD : l.dropWhile isPySpace with
    | nil => rfl
    | cons c rest =>
      have hc := dropWhile_head_not isPySpace l c rest hD
      by_cases hsh : ((trimR rest).isEmpty && isPySpace c) = true
      · simp [trimR, hsh]
      · simp only [trimR, hsh, if_false]
        exact List.dropWhile_cons_of_neg (by simp [hc])
  rw [hdw, trimR_idem]

theorem pyStripL_append_ws : ∀ (l : List Char) (c : Char), isPySpace c = true →
    pyStripL (l ++ [c]) = pyStripL l := by
  intro l c hc
  show trimR ((l ++ [c]).dropWhile isPySpace) = trimR (l.dropWhile isPySpace)
  rcases dropWhile_append_cases isPySpace l [c] with ⟨h1, h2⟩ | ⟨_, h2⟩
  · rw [h2, h1, List.dropWhile_cons_of_pos hc]; rfl
  · rw [h2, trimR_append_ws _ c hc]

theorem pyStripL_append_space (l : List Char) : pyStripL (l ++ [' ']) = pyStripL l :=
  pyStripL_append_ws l ' ' (by decide)

/-! ## Lemmas specific to the line-comment marker -/

theorem sw_dd_cons_append_space (c : Char) (cs b : List Char) :
    startsWithL ['-', '-'] (c :: (cs ++ ' ' :: b)) = startsWithL ['-', '-'] (c :: cs) := by
  cases cs with
  | nil => simp [startsWithL]
  | cons d ds => simp [startsWithL]

theorem hasSubL_dd_sep : ∀ a b : List Char,
    hasSubL ['-', '-'] (a ++ ' ' :: b) =
      (hasSubL ['-', '-'] a || hasSubL ['-', '-'] b) := by
  intro a b
  induction a with
  | nil => simp [hasSubL, startsWithL]
  | cons c cs ih =>
    rw [List.cons_append]
    show (startsWithL ['-', '-'] (c :: (cs ++ ' ' :: b)) || hasSubL ['-', '-'] (cs ++ ' ' :: b)) = _
    rw [sw_dd_cons_append_space, ih]
    show _ = ((startsWithL ['-', '-'] (c :: cs) || hasSubL ['-', '-'] cs) || _)
    rw [Bool.or_assoc]

theorem hasSubL_dd_append_space (l : List Char) :
    hasSubL ['-', '-'] (l ++ [' ']) = hasSubL ['-', '-'] l := by
  have h := hasSubL_dd_sep l []
  simpa [hasSubL] using h

/-! ## Membership preservation and newline lemmas -/

theorem mem_of_mem_trimR {c : Char} (l : List Char) (h : c ∈ trimR l) : c ∈ l := by
  obtain ⟨t, ht⟩ := trimR_decomp l
  rw [← ht]
  exact List.mem_append_left t h

theorem mem_of_mem_pyStripL {c : Char} (l : List Char) (h : c ∈ pyStripL l) : c ∈ l := by
  have h1 : c ∈ l.dropWhile isPySpace := mem_of_mem_trimR _ h
  obtain ⟨a, ha⟩ := dropWhile_decomp isPySpace l
  rw [← ha]
  exact List.mem_append_right a h1

theorem mem_of_mem_splitHeadL {c : Char} (n l : List Char) (h : c ∈ splitHeadL n l) :
    c ∈ l := by
  obtain ⟨t, ht⟩ := splitHeadL_decomp n l
  rw [← ht]
  exact List.mem_append_left t h

theorem hasSubL_pyStripL (n l : List Char) (h : hasSubL n l = false) :
    hasSubL n (pyStripL l) = false := by
  obtain ⟨a, ha⟩ := dropWhile_decomp isPySpace l
  rw [← ha] at h
  have h1 := hasSubL_append_right n a _ h
  obtain ⟨t, ht⟩ := trimR_decomp (l.dropWhile isPySpace)
  rw [← ht] at h1
  exact hasSubL_append_left n _ t h1

theorem pyStripL_no_nl (l : List Char) (hok : ∀ c ∈ l.dropLast, c ≠ '\n') :
    '\n' ∉ pyStripL l := by
  cases hl : l with
  | nil => intro hmem; exact absurd (mem_of_mem_pyStripL _ hmem) (by simp)
  | cons a as =>
    rw [← hl]
    have hne : l ≠ [] := by rw [hl]; exact List.cons_ne_nil a as
    have hdec : l.dropLast ++ [l.getLast hne] = l := List.dropLast_append_getLast hne
    by_cases hlast : l.getLast hne = '\n'
    · rw [← hdec, hlast, pyStripL_append_ws _ '\n' (by decide)]
      intro hmem
      exact hok '\n' (mem_of_mem_pyStripL _ hmem) rfl
    · intro hmem
      have hm : '\n' ∈ l := mem_of_mem_pyStripL _ hmem
      rw [← hdec] at hm
      rcases List.mem_append.mp hm with hm1 | hm2
      · exact hok '\n' hm1 rfl
      · exact hlast (List.mem_singleton.mp hm2).symm

/-! ## Lemmas about readlines -/

theorem readlinesL_cons (c : Char) (rest : List Char) :
    readlinesL (c :: rest) = rlStep c (readlinesL rest) := rfl

theorem readlinesL_lineOK : ∀ x : List Char, ∀ l ∈ readlinesL x,
    ∀ c ∈ l.dropLast, c ≠ '\n' := by
  intro x
  induction x with
  | nil => intro l hl; simp [readlinesL] at hl
  | cons c rest ih =>
    intro l hl
    rw [readlinesL_cons] at hl
    by_cases hc : (c == '\n') = true
    · simp only [rlStep] at hl; rw [if_pos hc] at hl
      rcases List.mem_cons.mp hl with h1 | h2
      · intro d hd; rw [h1] at hd; simp at hd
      · exact ih l h2
    · simp only [rlStep] at hl; rw [if_neg hc] at hl
      have hcne : c ≠ '\n' := by intro e; rw [e] at hc; exact hc rfl
      cases hR : readlinesL rest with
      | nil =>
        rw [hR] at hl
        intro d hd
        rcases List.mem_singleton.mp hl with h1
        rw [h1] at hd
        simp at hd
      | cons r rs =>
        rw [hR] at hl
        rcases List.mem_cons.mp hl with h1 | h2
        · intro d hd
          rw [h1] at hd
          cases r with
          | nil => simp at hd
          | cons y ys =>
            rw [show (c :: y :: ys).dropLast = c :: (y :: ys).dropLast from rfl] at hd
            rcases List.mem_cons.mp hd with hd1 | hd2
            · rw [hd1]; exact hcne
            · exact ih (y :: ys) (by rw [hR]; exact List.mem_cons_self (y :: ys) rs) d hd2
        · exact ih l (by rw [hR]; exact List.mem_cons_of_mem r h2)

theorem readlinesL_single : ∀ x : List Char, x ≠ [] → '\n' ∉ x → readlinesL x = [x] := by
  intro x
  induction x with
  | nil => intro h _; exact absurd rfl h
  | cons c rest ih =>
    intro _ hnl
    have hc : (c == '\n') = false := by
      cases he : (c == '\n') with
      | false => rfl
      | true =>
        exfalso
        exact hnl (beq_iff_eq.mp he ▸ List.mem_cons_self c rest)
    rw [readlinesL_cons]
    simp only [rlStep]
    rw [if_neg (by simp [hc])]
    cases hrest : rest with
    | nil => rw [show readlinesL [] = [] from rfl]
    | cons d ds =>
      rw [← hrest]
      have hrne : rest ≠ [] := by rw [hrest]; exact List.cons_ne_nil d ds
      have hrnl : '\n' ∉ rest := fun hm => hnl (List.mem_cons_of_mem c hm)
      rw [ih hrne hrnl]

/-! ## Shape and invariants of the stripping loop -/

theorem stripStep_shape (st : String × Bool) (line : String) :
    (Minifyer.stripStep st line).1 = st.1 ∨
    (Minifyer.stripStep st line).1 =
      st.1 ++ pyStrip (pySplitHead (pyStrip line) "--") ++ " " := by
  simp only [Minifyer.stripStep]
  by_cases hOpen : pyStartswith (pyStrip line) "--[" = true
  · rw [if_pos hOpen]
    by_cases hC : (decide (pyFind (pyStrip line) "]]" > -1) && true) = true
    · rw [if_pos hC]; left; rfl
    · rw [if_neg hC]
      rw [if_pos (show (pyStartswith (pyStrip line) "--" || true) = true by simp)]
      left; rfl
  · rw [if_neg hOpen]
    by_cases hC : (decide (pyFind (pyStrip line) "]]" > -1) && st.2) = true
    · rw [if_pos hC]; left; rfl
    · rw [if_neg hC]
      by_cases hB : (pyStartswith (pyStrip line) "--" || st.2) = true
      · rw [if_pos hB]; left; rfl
      · rw [if_neg hB]
        by_cases hF : (pyFind (pyStrip line) "--" == 0) = true
        · exfalso
          have hfind : pyFindL ("--".data) (pyStrip line).data = 0 := beq_iff_eq.mp hF
          have hsw : pyStartswith (pyStrip line) "--" = true :=
            pyFindL_eq_zero_imp _ _ hfind
          rw [hsw] at hB
          simp at hB
        · rw [if_neg hF]
          right
          rfl

theorem stripStep_no_nl (st : String × Bool) (line : String)
    (h : '\n' ∉ st.1.data) (hline : ∀ c ∈ line.data.dropLast, c ≠ '\n') :
    '\n' ∉ (Minifyer.stripStep st line).1.data := by
  rcases stripStep_shape st line with he | he
  · rw [he]; exact h
  · rw [he]
    intro hmem
    rw [String.data_append, String.data_append] at hmem
    rcases List.mem_append.mp hmem with hm | hm
    · rcases List.mem_append.mp hm with hm1 | hm2
      · exact h hm1
      · have hm3 : '\n' ∈ splitHeadL ("--".data) (pyStripL line.data) :=
          mem_of_mem_pyStripL _ hm2
        have hm4 : '\n' ∈ pyStripL line.data := mem_of_mem_splitHeadL _ _ hm3
        exact pyStripL_no_nl line.data hline hm4
    · simp [String.data] at hm

theorem stripStep_noDD (st : String × Bool) (line : String)
    (h1 : hasSubL ['-', '-'] st.1.data = false)
    (h2 : st.1.data = [] ∨ ∃ b, st.1.data = b ++ [' ']) :
    hasSubL ['-', '-'] (Minifyer.stripStep st line).1.data = false ∧
      ((Minifyer.stripStep st line).1.data = [] ∨
        ∃ b, (Minifyer.stripStep st line).1.data = b ++ [' ']) := by
  rcases stripStep_shape st line with he | he
  · rw [he]; exact ⟨h1, h2⟩
  · rw [he]
    have hch : hasSubL ['-', '-'] (pyStrip (pySplitHead (pyStrip line) "--")).data = false := by
      have hsp : hasSubL ['-', '-'] (splitHeadL ("--".data) (pyStripL line.data)) = false := by
        show hasSubL ['-', '-'] (splitHeadL ['-', '-'] (pyStripL line.data)) = false
        exact hasSubL_splitHeadL ['-', '-'] (by decide) _
      exact hasSubL_pyStripL _ _ hsp
    have hdata : (st.1 ++ pyStrip (pySplitHead (pyStrip line) "--") ++ " ").data
        = st.1.data ++ ((pyStrip (pySplitHead (pyStrip line) "--")).data ++ [' ']) := by
      rw [String.data_append, String.data_append, List.append_assoc]
    constructor
    · rw [hdata]
      rcases h2 with hz | ⟨b, hb⟩
      · rw [hz, List.nil_append, hasSubL_dd_append_space]
        exact hch
      · rw [hb] at h1 ⊢
        rw [hasSubL_dd_append_space] at h1
        rw [List.append_assoc]
        rw [show ([' '] : List Char) ++
            ((pyStrip (pySplitHead (pyStrip line) "--")).data ++ [' ']) =
            ' ' :: ((pyStrip (pySplitHead (pyStrip line) "--")).data ++ [' ']) from rfl]
        rw [hasSubL_dd_sep, hasSubL_dd_append_space, h1, hch]
        rfl
    · right
      refine ⟨(st.1 ++ pyStrip (pySplitHead (pyStrip line) "--")).data, ?_⟩
      rw [hdata, String.data_append, List.append_assoc]

theorem foldl_stripStep_no_nl : ∀ (lines : List String) (st : String × Bool),
    '\n' ∉ st.1.data → (∀ l ∈ lines, ∀ c ∈ l.data.dropLast, c ≠ '\n') →
    '\n' ∉ ((lines.foldl Minifyer.stripStep st).1).data := by
  intro lines
  induction lines with
  | nil => intro st h _; exact h
  | cons l ls ih =>
    intro st h hall
    rw [List.foldl_cons]
    exact ih (Minifyer.stripStep st l)
      (stripStep_no_nl st l h (hall l (List.mem_cons_self l ls)))
      (fun l' hl' => hall l' (List.mem_cons_of_mem l hl'))

theorem foldl_stripStep_noDD : ∀ (lines : List String) (st : String × Bool),
    hasSubL ['-', '-'] st.1.data = false →
    (st.1.data = [] ∨ ∃ b, st.1.data = b ++ [' ']) →
    hasSubL ['-', '-'] ((lines.foldl Minifyer.stripStep st).1).data = false ∧
      (((lines.foldl Minifyer.stripStep st).1).data = [] ∨
        ∃ b, ((lines.foldl Minifyer.stripStep st).1).data = b ++ [' ']) := by
  intro lines
  induction lines with
  | nil => intro st h1 h2; exact ⟨h1, h2⟩
  | cons l ls ih =>
    intro st h1 h2
    rw [List.foldl_cons]
    exact ih (Minifyer.stripStep st l)
      (stripStep_noDD st l h1 h2).1 (stripStep_noDD st l h1 h2).2

theorem readlines_line_cond (x : String) :
    ∀ l ∈ readlines x, ∀ c ∈ l.data.dropLast, c ≠ '\n' := by
  intro l hl
  obtain ⟨l', hl', rfl⟩ := List.mem_map.mp hl
  exact readlinesL_lineOK x.data l' hl'

theorem stripText_no_nl (x : String) : '\n' ∉ (Minifyer.stripText x).data :=
  foldl_stripStep_no_nl (readlines x) ("", false) (by simp) (readlines_line_cond x)

theorem stripText_noDD (x : String) :
    hasSubL ['-', '-'] (Minifyer.stripText x).data = false :=
  (foldl_stripStep_noDD (readlines x) ("", false) (by decide) (Or.inl rfl)).1

theorem stripText_endsSp (x : String) :
    (Minifyer.stripText x).data = [] ∨ ∃ b, (Minifyer.stripText x).data = b ++ [' '] :=
  (foldl_stripStep_noDD (readlines x) ("", false) (by decide) (Or.inl rfl)).2

/-! ## Evaluation of the stripping loop on marker-free single-line text -/

theorem str_empty_append (x : String) : "" ++ x = x := by
  apply String.ext
  rw [String.data_append]
  rfl

theorem stripStep_normal_clean (st : String × Bool) (line : String)
    (hsk : st.2 = false)
    (hdd : hasSubL ['-', '-'] (pyStrip line).data = false) :
    Minifyer.stripStep st line = (st.1 ++ pyStrip line ++ " ", false) := by
  have hOpen : ¬ (pyStartswith (pyStrip line) "--[" = true) := by
    intro h
    have h1 : startsWithL (['-', '-'] ++ ['[']) (pyStrip line).data = true := h
    have h2 := startsWithL_of_append_left ['-', '-'] ['['] _ h1
    have h3 := hasSubL_of_startsWithL _ _ h2
    exact Bool.false_ne_true (hdd.symm.trans h3)
  have hB : ¬ (pyStartswith (pyStrip line) "--" = true) := by
    intro h
    exact Bool.false_ne_true (hdd.symm.trans (hasSubL_of_startsWithL _ _ h))
  have hfind : pyFind (pyStrip line) "--" = -1 := pyFindL_eq_neg_of_no _ _ hdd
  simp only [Minifyer.stripStep, hsk]
  rw [if_neg hOpen]
  rw [if_neg (show ¬ (decide (pyFind (pyStrip line) "]]" > -1) && false) = true by simp)]
  rw [if_neg (show ¬ (pyStartswith (pyStrip line) "--" || false) = true by simp [hB])]
  rw [if_neg (show ¬ ((pyFind (pyStrip line) "--" == 0) = true) by rw [hfind]; decide)]
  have hsh : pySplitHead (pyStrip line) "--" = pyStrip line := by
    apply String.ext
    show splitHeadL ("--".data) (pyStrip line).data = (pyStrip line).data
    exact splitHeadL_eq_self _ _ hdd
  rw [hsh]
  have hidem : pyStrip (pyStrip line) = pyStrip line := String.ext (pyStripL_idem line.data)
  rw [hidem]

theorem stripText_single (S : String) (hne : S.data ≠ []) (hnl : '\n' ∉ S.data)
    (hdd : hasSubL ['-', '-'] S.data = false) :
    Minifyer.stripText S = pyStrip S ++ " " := by
  have hrl : readlines S = [S] := by
    show (readlinesL S.data).map (fun l => String.mk l) = [S]
    rw [readlinesL_single S.data hne hnl]
    rfl
  show ((readlines S).foldl Minifyer.stripStep ("", false)).1 = _
  rw [hrl, List.foldl_cons, List.foldl_nil,
    stripStep_normal_clean ("", false) S rfl (hasSubL_pyStripL _ _ hdd)]
  show "" ++ pyStrip S ++ " " = pyStrip S ++ " "
  rw [str_empty_append (pyStrip S)]

theorem stripText_stabilizes (x : String) :
    Minifyer.stripText (Minifyer.stripText (Minifyer.stripText x)) =
      Minifyer.stripText (Minifyer.stripText x) := by
  by_cases hz : (Minifyer.stripText x).data = []
  · have hSe : Minifyer.stripText x = "" := String.ext hz
    rw [hSe]
    rfl
  · have h2 : Minifyer.stripText (Minifyer.stripText x) = pyStrip (Minifyer.stripText x) ++ " " :=
      stripText_single _ hz (stripText_no_nl x) (stripText_noDD x)
    rw [h2]
    have h2ne : (pyStrip (Minifyer.stripText x) ++ " ").data ≠ [] := by
      rw [String.data_append]
      simp
    have h2nl : '\n' ∉ (pyStrip (Minifyer.stripText x) ++ " ").data := by
      rw [String.data_append]
      intro h
      rcases List.mem_append.mp h with h1 | h1
      · exact stripText_no_nl x (mem_of_mem_pyStripL _ h1)
      · simp [String.data] at h1
    have h2dd : hasSubL ['-', '-'] (pyStrip (Minifyer.stripText x) ++ " ").data = false := by
      show hasSubL ['-', '-'] (pyStripL (Minifyer.stripText x).data ++ [' ']) = false
      rw [hasSubL_dd_append_space]
      exact hasSubL_pyStripL _ _ (stripText_noDD x)
    rw [stripText_single _ h2ne h2nl h2dd]
    have heq : pyStrip (pyStrip (Minifyer.stripText x) ++ " ") = pyStrip (Minifyer.stripText x) := by
      apply String.ext
      show pyStripL (pyStripL (Minifyer.stripText x).data ++ [' ']) =
        pyStripL (Minifyer.stripText x).data
      rw [pyStripL_append_space, pyStripL_idem]
    rw [heq]

/-! ## Behavior of the stripping loop in the block-comment state -/

theorem stripStep_skip_close (st : String × Bool) (line : String) (hsk : st.2 = true)
    (h : pyFind (pyStrip line) "]]" > -1) :
    Minifyer.stripStep st line = (st.1, false) := by
  simp only [Minifyer.stripStep, hsk, ite_self]
  rw [if_pos (show (decide (pyFind (pyStrip line) "]]" > -1) && true) = true by simp [h])]

theorem stripStep_skip_noclose (st : String × Bool) (line : String) (hsk : st.2 = true)
    (h : ¬ pyFind (pyStrip line) "]]" > -1) :
    Minifyer.stripStep st line = (st.1, true) := by
  simp only [Minifyer.stripStep, hsk, ite_self]
  rw [if_neg (show ¬ (decide (pyFind (pyStrip line) "]]" > -1) && true) = true by simp [h])]
  rw [if_pos (show (pyStartswith (pyStrip line) "--" || true) = true by simp)]

/-! ## Lemmas about the minifyer main run -/

theorem str_append_empty (x : String) : x ++ "" = x := by
  apply String.ext
  rw [String.data_append]
  exact List.append_nil x.data

theorem mainGo_factor (fs : String → Option String) :
    ∀ (paths : List String) (a b : String),
      Minifyer.mainGo fs paths (a ++ b) =
        ((Minifyer.mainGo fs paths b).1.map (fun r => a ++ r),
          (Minifyer.mainGo fs paths b).2) := by
  intro paths
  induction paths with
  | nil =>
    intro a b
    simp only [Minifyer.mainGo, Option.map]
    rw [String.append_assoc]
  | cons p ps ih =>
    intro a b
    cases hfs : fs (p ++ ".lua") with
    | none => simp [Minifyer.mainGo, hfs, Option.map]
    | some c =>
      simp only [Minifyer.mainGo, hfs]
      rw [String.append_assoc]
      exact ih a (b ++ Minifyer.lua_file_function p c)

theorem mainGo_some (fs : String → Option String) :
    ∀ (paths : List String) (w : String), ∃ r, (Minifyer.mainGo fs paths w).1 = some r := by
  intro paths
  induction paths with
  | nil => intro w; exact ⟨w ++ "return ccmaze", rfl⟩
  | cons p ps ih =>
    intro w
    cases hfs : fs (p ++ ".lua") with
    | none => exact ⟨w, by simp [Minifyer.mainGo, hfs]⟩
    | some c =>
      obtain ⟨r, hr⟩ := ih (w ++ Minifyer.lua_file_function p c)
      exact ⟨r, by simp [Minifyer.mainGo, hfs, hr]⟩

/-! ## Lemmas about the packer composition -/

theorem foldl_units (l : List (String × String)) : ∀ a : String,
    l.foldl (fun acc pc => acc ++ Packer.lua_file_function pc.1 pc.2) a =
      a ++ (l.map (fun pc => Packer.lua_file_function pc.1 pc.2)).foldr (· ++ ·) "" := by
  induction l with
  | nil => intro a; rw [List.map_nil, List.foldr_nil, str_append_empty]; rfl
  | cons x xs ih =>
    intro a
    rw [List.foldl_cons, ih, List.map_cons, List.foldr_cons, ← String.append_assoc]

theorem save_lua_file_fail_no_write (fs : String → Option String) (paths : List String)
    (h : (Packer.save_lua_file fs paths).2 = false) :
    (Packer.save_lua_file fs paths).1 = none := by
  cases hra : Packer.readAll fs paths with
  | none => simp [Packer.save_lua_file, hra]
  | some prs => simp [Packer.save_lua_file, hra] at h

/-! ## Lemmas about module id derivation -/

theorem map_eq_self_of_not_mem (l : List Char) (a b : Char) (h : a ∉ l) :
    l.map (fun c => if c == a then b else c) = l := by
  induction l with
  | nil => rfl
  | cons c cs ih =>
    have hca : ¬ ((c == a) = true) := by
      intro he
      exact h (by rw [← beq_iff_eq.mp he]; exact List.mem_cons_self c cs)
    rw [List.map_cons, if_neg hca, ih (fun hm => h (List.mem_cons_of_mem c hm))]

theorem slashMap_inj : ∀ l1 l2 : List Char, '.' ∉ l1 → '.' ∉ l2 →
    l1.map (fun c => if c == '/' then '.' else c) =
      l2.map (fun c => if c == '/' then '.' else c) → l1 = l2 := by
  intro l1
  induction l1 with
  | nil =>
    intro l2 _ _ h
    cases l2 with
    | nil => rfl
    | cons d ds => simp at h
  | cons c cs ih =>
    intro l2 h1 h2 h
    cases l2 with
    | nil => simp at h
    | cons d ds =>
      rw [List.map_cons, List.map_cons] at h
      have hd := List.cons_eq_cons.mp h
      have hc1 : c ≠ '.' := fun he => h1 (he ▸ List.mem_cons_self c cs)
      have hd1 : d ≠ '.' := fun he => h2 (he ▸ List.mem_cons_self d ds)
      have hhead : c = d := by
        by_cases hc : (c == '/') = true <;> by_cases hdq : (d == '/') = true
        · rw [beq_iff_eq.mp hc, beq_iff_eq.mp hdq]
        · rw [if_pos hc, if_neg hdq] at hd
          exact absurd hd.1.symm hd1
        · rw [if_neg hc, if_pos hdq] at hd
          exact absurd hd.1 hc1
        · rw [if_neg hc, if_neg hdq] at hd
          exact hd.1
      refine hhead ▸ congrArg (c :: ·) ?_
      exact ih ds (fun hm => h1 (List.mem_cons_of_mem c hm))
        (fun hm => h2 (List.mem_cons_of_mem d hm)) hd.2

theorem moduleId_data (p : String) :
    (moduleId p).data =
      (p.data.map (fun c => if c == '\\' then '.' else c)).map
        (fun c => if c == '/' then '.' else c) := rfl

theorem replaceChar_no_mem (s : String) (a b x : Char) (hb : b ≠ x) (hs : x ∉ s.data) :
    x ∉ (pyReplaceChar s a b).data := by
  intro h
  obtain ⟨c, hc, hfc⟩ := List.mem_map.mp h
  by_cases hca : (c == a) = true
  · rw [if_pos hca] at hfc
    exact hb hfc
  · rw [if_neg hca] at hfc
    exact hs (hfc ▸ hc)

/-! ## Sanity checks of the tool embeddings (concrete evaluations) -/

example : Minifyer.stripText "print(\"a -- b\")" = "print(\"a " := by decide
example : Minifyer.stripText "-- c\nreturn 1" = "return 1 " := by decide
example : Minifyer.stripText "--[[\nc\n]]\nx -- y" = "x " := by decide
example : Minifyer.stripText "foo\n\n" = "foo  " := by decide
example : Minifyer.stripText "foo  " = "foo " := by decide
example : Minifyer.stripText "--[[\na]] b\nc -- d" = "c " := by decide
example : specStripC7 "--[[\na]] b\nc -- d" = "b c " := by decide
example :
    Minifyer.lua_file_function "ccmaze/a" "-- c\nreturn 1" =
      "files[\x27ccmaze.a\x27] = function(...) return 1  end " := by decide
example :
    Packer.lua_file_function "ccmaze/a" "return 1" =
      "files[\x27ccmaze.a\x27] = function(...)\nreturn 1\nend\n" := by decide
example :
    Packer.find_files [("ccmaze/x.y", "z.lua"), ("ccmaze/x/y", "z.lua")] =
      ["ccmaze/x.y/z", "ccmaze/x/y/z"] := by decide
example :
    Packer.find_files [("ccmaze/tests", "t.lua"), ("ccmaze", "init.lua"), ("ccmaze", "a.txt")] =
      [] := by decide
example :
    bundleRequire (fun _ => none) (fun _ => LuaValue.val 7) "missing" =
      Except.error "attempt to call a nil value" := rfl
example :
    bundleRequire (fun p => if p = "m" then some (fun _ => LuaValue.val 3) else none)
      (fun _ => LuaValue.val 7) "m" = Except.ok (LuaValue.val 3) := rfl

/-! ## Claims -/

/-- Claim C1, counterexample: the stripper does remove a line-comment marker
that occurs only inside a quoted string literal: input print("a -- b") strips
to print("a  (truncated before the marker, with the flattening separator
space), not to the input retained verbatim. -/
theorem C1_counterexample :
    Minifyer.stripText "print(\"a -- b\")" = "print(\"a " ∧
    Minifyer.stripText "print(\"a -- b\")" ≠ "print(\"a -- b\")" :=
  ⟨by decide, by decide⟩

/-- Claim C1, amended: the stripper truncates every NORMAL-mode line at the
first line-comment marker regardless of quoted strings: the stripped output
never contains the marker sequence at all, and in particular
print("a -- b") strips to print("a  followed by the separator space. -/
theorem C1_amended :
    (∀ x : String, hasSubL ("--".data) (Minifyer.stripText x).data = false) ∧
    Minifyer.stripText "print(\"a -- b\")" = "print(\"a " :=
  ⟨fun x => stripText_noDD x, by decide⟩

/-- Claim C2: evaluation of the emitted resolver at the failing input. With
the requested id absent from the local registry, files[path]() is a call of
nil and raises instead of falling back to the native resolver; with the id
present and a truthy module result, the entry result is returned. -/
theorem C2_code_eval :
    bundleRequire (fun _ => none) (fun _ => LuaValue.val 7) "missing" =
      Except.error "attempt to call a nil value" ∧
    bundleRequire (fun p => if p = "m" then some (fun _ => LuaValue.val 3) else none)
      (fun _ => LuaValue.val 7) "m" = Except.ok (LuaValue.val 3) :=
  ⟨rfl, rfl⟩

/-- Claim C3, counterexample: two distinct paths discoverable in one run (a
dotted directory name beside nested directories) derive the same module id. -/
theorem C3_counterexample :
    Packer.find_files [("ccmaze/x.y", "z.lua"), ("ccmaze/x/y", "z.lua")] =
      ["ccmaze/x.y/z", "ccmaze/x/y/z"] ∧
    moduleId "ccmaze/x.y/z" = moduleId "ccmaze/x/y/z" ∧
    ("ccmaze/x.y/z" : String) ≠ "ccmaze/x/y/z" :=
  ⟨by decide, by decide, by decide⟩

/-- Claim C3, amended: module id derivation is injective on paths that avoid
the delimiter characters: when neither path contains a dot or a backslash,
distinct paths derive distinct module ids. -/
theorem C3_amended (p1 p2 : String)
    (h1d : '.' ∉ p1.data) (h1b : '\\' ∉ p1.data)
    (h2d : '.' ∉ p2.data) (h2b : '\\' ∉ p2.data)
    (hne : p1 ≠ p2) : moduleId p1 ≠ moduleId p2 := by
  intro he
  apply hne
  apply String.ext
  have e1 : (p1.data.map (fun c => if c == '\\' then '.' else c)) = p1.data :=
    map_eq_self_of_not_mem _ _ _ h1b
  have e2 : (p2.data.map (fun c => if c == '\\' then '.' else c)) = p2.data :=
    map_eq_self_of_not_mem _ _ _ h2b
  have hdq := congrArg String.data he
  rw [moduleId_data, moduleId_data, e1, e2] at hdq
  exact slashMap_inj _ _ h1d h2d hdq

/-- Claim C3, witness for the amended statement at concrete delimiter-free
paths. -/
theorem C3_witness : moduleId "ccmaze/a" ≠ moduleId "ccmaze/b" :=
  C3_amended "ccmaze/a" "ccmaze/b" (by decide) (by decide) (by decide) (by decide)
    (by decide)

/-- Claim C4, counterexample: with two source files deriving the same module
id, the packer raises nothing and still writes the output artifact. -/
theorem C4_counterexample :
    moduleId "ccmaze/x.y/z" = moduleId "ccmaze/x/y/z" ∧
    ("ccmaze/x.y/z" : String) ≠ "ccmaze/x/y/z" ∧
    (Packer.save_lua_file
      (fun s => if s = "ccmaze/x.y/z.lua" then some "return 1"
        else if s = "ccmaze/x/y/z.lua" then some "return 2" else none)
      ["ccmaze/x.y/z", "ccmaze/x/y/z"]).2 = true ∧
    (Packer.save_lua_file
      (fun s => if s = "ccmaze/x.y/z.lua" then some "return 1"
        else if s = "ccmaze/x/y/z.lua" then some "return 2" else none)
      ["ccmaze/x.y/z", "ccmaze/x/y/z"]).1 ≠ none :=
  ⟨by decide, by decide, by decide, by decide⟩

/-- Claim C4, amended: the packer performs no collision check: when two files
derive the same module id it silently emits both registry assignments in
order inside the bundle (so the later assignment overwrites the earlier one
at host runtime) and the output is produced. -/
theorem C4_amended (p1 p2 c1 c2 : String) (hcol : moduleId p1 = moduleId p2)
    (hne : p1 ≠ p2) :
    Packer.generate_lua_code [(p1, c1), (p2, c2)] =
      Packer.lua_custom_require ++
        (Packer.lua_file_function p1 c1 ++ Packer.lua_file_function p2 c2) ++
        "return ccmaze" := by
  unfold Packer.generate_lua_code
  rw [foldl_units]
  rw [show ((([(p1, c1), (p2, c2)]).map
      (fun pc => Packer.lua_file_function pc.1 pc.2)).foldr (· ++ ·) "") =
      Packer.lua_file_function p1 c1 ++ (Packer.lua_file_function p2 c2 ++ "") from rfl]
  rw [str_append_empty]

/-- Claim C4, witness for the amended statement at the concrete collision. -/
theorem C4_witness :
    Packer.generate_lua_code [("ccmaze/x.y/z", "return 1"), ("ccmaze/x/y/z", "return 2")] =
      Packer.lua_custom_require ++
        (Packer.lua_file_function "ccmaze/x.y/z" "return 1" ++
          Packer.lua_file_function "ccmaze/x/y/z" "return 2") ++
        "return ccmaze" :=
  C4_amended "ccmaze/x.y/z" "ccmaze/x/y/z" "return 1" "return 2" (by decide) (by decide)

/-- Claim C5, counterexample: two minifyer runs over the identical source
tree with identical flags but started at different clock times produce
different bytes, because the first output line embeds the timestamp. -/
theorem C5_counterexample :
    Minifyer.mainRun "2024-01-01 00:00:00" (fun _ => none) [] ≠
      Minifyer.mainRun "2024-01-01 00:00:01" (fun _ => none) [] := by
  decide

/-- Claim C5, amended: a minifyer run is the timestamp header followed by a
remainder fully determined by the source tree: two runs over the same tree
differ at most in the embedded timestamp, and with equal timestamps the
outputs are byte-identical (the packer run model, having no timestamp, is a
pure function of the tree by construction). -/
theorem C5_amended (t1 t2 : String) (fs : String → Option String) (paths : List String) :
    ∃ r ok, Minifyer.mainRun t1 fs paths = (some (Minifyer.mkHeader t1 ++ r), ok) ∧
      Minifyer.mainRun t2 fs paths = (some (Minifyer.mkHeader t2 ++ r), ok) := by
  obtain ⟨r0, hr0⟩ :=
    mainGo_some fs paths (pyReplaceChar Minifyer.lua_custom_require '\n' ' ')
  refine ⟨r0,
    (Minifyer.mainGo fs paths (pyReplaceChar Minifyer.lua_custom_require '\n' ' ')).2,
    ?_, ?_⟩
  · show Minifyer.mainGo fs paths (Minifyer.mkHeader t1 ++ _) = _
    rw [mainGo_factor fs paths (Minifyer.mkHeader t1) _, hr0]
    rfl
  · show Minifyer.mainGo fs paths (Minifyer.mkHeader t2 ++ _) = _
    rw [mainGo_factor fs paths (Minifyer.mkHeader t2) _, hr0]
    rfl

/-- Claim C6, counterexample: stripping is not idempotent: a blank line emits
a separator space that a second pass trims away. -/
theorem C6_counterexample :
    Minifyer.stripText "foo\n\n" = "foo  " ∧
    Minifyer.stripText (Minifyer.stripText "foo\n\n") = "foo " ∧
    Minifyer.stripText (Minifyer.stripText "foo\n\n") ≠ Minifyer.stripText "foo\n\n" :=
  ⟨by decide, by decide, by decide⟩

/-- Claim C6, amended: stripping stabilizes from the second application on:
for every input, the third application returns the second application's
output unchanged (one application alone is not idempotent, since blank or
emptied lines contribute separator spaces that the next pass trims). -/
theorem C6_amended (x : String) :
    Minifyer.stripText (Minifyer.stripText (Minifyer.stripText x)) =
      Minifyer.stripText (Minifyer.stripText x) :=
  stripText_stabilizes x

/-- Claim C7, counterexample: on a block comment whose close-marker line has
trailing content, the code discards the entire line, while the machine the
claim describes processes the trailing content under NORMAL rules: the two
disagree on the concrete input. -/
theorem C7_counterexample :
    Minifyer.stripText "--[[\na]] b\nc -- d" = "c " ∧
    specStripC7 "--[[\na]] b\nc -- d" = "b c " ∧
    Minifyer.stripText "--[[\na]] b\nc -- d" ≠ specStripC7 "--[[\na]] b\nc -- d" :=
  ⟨by decide, by decide, by decide⟩

/-- Claim C7, amended: in the block-comment state, a line holding the close
marker returns the stripper to NORMAL but is discarded whole, trailing
content included, and the following lines are processed from the NORMAL
state (so a later line-comment marker is stripped under NORMAL rules); a
line without the close marker is discarded and the state kept. -/
theorem C7_amended (line : String) (rest : List String) (a : String) :
    (pyFind (pyStrip line) "]]" > -1 →
      (line :: rest).foldl Minifyer.stripStep (a, true) =
        rest.foldl Minifyer.stripStep (a, false)) ∧
    (¬ pyFind (pyStrip line) "]]" > -1 →
      (line :: rest).foldl Minifyer.stripStep (a, true) =
        rest.foldl Minifyer.stripStep (a, true)) := by
  constructor
  · intro h
    rw [List.foldl_cons, stripStep_skip_close (a, true) line rfl h]
  · intro h
    rw [List.foldl_cons, stripStep_skip_noclose (a, true) line rfl h]

/-- Claim C7, witness for the amended statement: one close-marker line and
one marker-free line, at concrete inputs. -/
theorem C7_witness :
    (["a]] b"].foldl Minifyer.stripStep ("", true) =
      ([] : List String).foldl Minifyer.stripStep ("", false)) ∧
    (["xy"].foldl Minifyer.stripStep ("", true) =
      ([] : List String).foldl Minifyer.stripStep ("", true)) :=
  ⟨(C7_amended "a]] b" [] "").1 (by decide), (C7_amended "xy" [] "").2 (by decide)⟩

/-- Claim C8, counterexample: a minifyer run whose single file read fails
still leaves an output artifact on disk holding the already-written header
and prologue: the failed run persists a partial artifact. -/
theorem C8_counterexample :
    (Minifyer.mainRun "2024-01-01 00:00:00" (fun _ => none) ["ccmaze/a"]).2 = false ∧
    (Minifyer.mainRun "2024-01-01 00:00:00" (fun _ => none) ["ccmaze/a"]).1 ≠ none :=
  ⟨by decide, by decide⟩

/-- Claim C8, amended: the packer reads every input before opening the
output, so a failed packer run writes no artifact at all; the minifyer
writes incrementally, so its failed runs can persist a partial artifact. -/
theorem C8_amended (fs : String → Option String) (paths : List String)
    (h : (Packer.save_lua_file fs paths).2 = false) :
    (Packer.save_lua_file fs paths).1 = none :=
  save_lua_file_fail_no_write fs paths h

/-- Claim C8, witness for the amended statement at a concrete failing run. -/
theorem C8_witness : (Packer.save_lua_file (fun _ => none) ["ccmaze/a"]).1 = none :=
  C8_amended (fun _ => none) ["ccmaze/a"] (by decide)

/-- Claim C9: for every ordered list of discovered files, the composed
bundle text is exactly the prologue, then one registry-assignment unit per
file in list order (each binding the derived module id to a deferred
function whose body is the file content), then the epilogue returning the
namespace object that exposes the shadow resolver. -/
theorem C9_bundle_grammar (files : List (String × String)) :
    Packer.generate_lua_code files =
      Packer.lua_custom_require ++
        (files.map (fun pc => Packer.lua_file_function pc.1 pc.2)).foldr (· ++ ·) "" ++
        "return ccmaze" := by
  unfold Packer.generate_lua_code
  rw [foldl_units]

/-- Claim C10: the wrapped unit emitted by the minifyer holds no newline
character for any file content (the path, as produced by discovery on a
sane tree, holding none itself): the entire registry assignment, stripped
body and closing end included, is a single space-joined line. -/
theorem C10_unit_single_line (path content : String) (hp : '\n' ∉ path.data) :
    '\n' ∉ (Minifyer.lua_file_function path content).data := by
  have hmid : '\n' ∉ (moduleId path).data := by
    have h1 : '\n' ∉ (pyReplaceChar path '\\' '.').data :=
      replaceChar_no_mem path '\\' '.' '\n' (by decide) hp
    exact replaceChar_no_mem _ '/' '.' '\n' (by decide) h1
  have hhead :
      '\n' ∉ (("files[\x27" ++ moduleId path ++ "\x27] = function(...) " : String)).data := by
    rw [String.data_append, String.data_append]
    intro h
    rcases List.mem_append.mp h with h1 | h1
    · rcases List.mem_append.mp h1 with h2 | h2
      · exact absurd h2 (by decide)
      · exact hmid h2
    · exact absurd h1 (by decide)
  have hfold := foldl_stripStep_no_nl (readlines content)
    ("files[\x27" ++ moduleId path ++ "\x27] = function(...) ", false) hhead
    (readlines_line_cond content)
  intro hmem
  simp only [Minifyer.lua_file_function] at hmem
  rw [String.data_append] at hmem
  rcases List.mem_append.mp hmem with h1 | h1
  · exact hfold h1
  · exact absurd h1 (by decide)

/-- Claim C10, witness at a concrete path and content. -/
theorem C10_witness :
    '\n' ∉ ("ccmaze/a" : String).data ∧
    '\n' ∉ (Minifyer.lua_file_function "ccmaze/a" "-- c\nreturn 1\n").data :=
  ⟨by decide, C10_unit_single_line "ccmaze/a" "-- c\nreturn 1\n" (by decide)⟩
